import Mathlib

/-!
# Change-overlay engine of `EditableGrid` — a shallow embedding

Verification development for the change-overlay engine implemented in
`src/app/components/EditableGrid.tsx`.  Rows are JavaScript objects; we model
them as ordered association lists of field name to JSON-style value.  The
overlay (`ChangeState<T>`) is a JavaScript object keyed by the string form of
the row identity; we model it as an ordered association list with JavaScript
assignment semantics (updating an existing key keeps its position, a new key
is appended, `delete` removes the entry).

Numeric values are modelled as integers (the scenarios of the component and
its tests use only integral numbers; IEEE-754 formatting quirks are not
modelled).  Object identities: the component casts identities to
`string | number`, so the `===` comparison and the property-key coercion are
modelled for primitive values; non-primitive identity values are outside the
component's contract.
-/

namespace EditableGrid

/-- A JSON-style JavaScript value.  Object fields are kept in insertion
order, as JavaScript objects do for non-index string keys. -/
inductive Value where
  | null
  | bool (b : Bool)
  | num (n : Int)
  | str (s : String)
  | arr (elems : List Value)
  | obj (fields : List (String × Value))

/-- A row: a record of field name to value, in field order.  (`T extends
Record<string, unknown>` in the source.) -/
abbrev Row := List (String × Value)

/-- One hexadecimal digit. -/
def hexDigit (n : Nat) : Char :=
  if n < 10 then Char.ofNat (48 + n) else Char.ofNat (87 + n)

/-- JSON escaping of one character, as `JSON.stringify` performs it on the
characters appearing inside a string value or a key. -/
def escapeChar (c : Char) : String :=
  if c == '"' then "\\\""
  else if c == '\\' then "\\\\"
  else if c == '\n' then "\\n"
  else if c == '\t' then "\\t"
  else if c == '\r' then "\\r"
  else if c.toNat < 32 then
    "\\u00" ++ String.mk [hexDigit (c.toNat / 16), hexDigit (c.toNat % 16)]
  else String.singleton c

/-- A JSON string literal: quotes around the escaped characters. -/
def quoteStr (s : String) : String :=
  "\"" ++ String.join (s.data.map escapeChar) ++ "\""

mutual
/-- `JSON.stringify` of a value (the serialization used by the component's
`deepEqual`).  Object fields serialize in the row's field order. -/
def stringifyVal : Value → String
  | .null => "null"
  | .bool b => cond b "true" "false"
  | .num n => toString n
  | .str s => quoteStr s
  | .arr xs => "[" ++ stringifyElems xs ++ "]"
  | .obj fs => "\x7b" ++ stringifyFields fs ++ "\x7d"

/-- Comma-joined serializations of array elements. -/
def stringifyElems : List Value → String
  | [] => ""
  | [v] => stringifyVal v
  | v :: rest => stringifyVal v ++ "," ++ stringifyElems rest

/-- Comma-joined `"key":value` serializations of object fields. -/
def stringifyFields : List (String × Value) → String
  | [] => ""
  | [(k, v)] => quoteStr k ++ ":" ++ stringifyVal v
  | (k, v) :: rest => quoteStr k ++ ":" ++ stringifyVal v ++ "," ++ stringifyFields rest
end

/-- `deepEqual` of the source: `JSON.stringify(obj1) === JSON.stringify(obj2)`. -/
def deepEqual (obj1 obj2 : Value) : Bool :=
  stringifyVal obj1 == stringifyVal obj2

/-- `deepEqual` applied to two rows. -/
def deepEqualRow (r1 r2 : Row) : Bool :=
  deepEqual (.obj r1) (.obj r2)

/-- Field lookup on a row: `row[k]`, `none` when the field is absent
(JavaScript `undefined`). -/
def getField (row : Row) (k : String) : Option Value :=
  (row.find? (fun kv => kv.1 == k)).map (fun kv => kv.2)

/-- `getRowId` of the source: `row[idField]`; `none` models `undefined`. -/
def getRowId (idField : String) (row : Row) : Option Value :=
  getField row idField

/-- JavaScript property-key coercion of an identity value (`draft[id]`
coerces `id` to a string; `undefined` becomes the key `"undefined"`).
Identities are cast to `string | number` by the source; non-primitive
values are given a placeholder string. -/
def jsKeyString : Option Value → String
  | none => "undefined"
  | some .null => "null"
  | some (.bool b) => cond b "true" "false"
  | some (.num n) => toString n
  | some (.str s) => s
  | some (.arr _) => "[object Array]"
  | some (.obj _) => "[object Object]"

/-- The overlay key of a row: the string form of its identity value. -/
def rowKey (idField : String) (row : Row) : String :=
  jsKeyString (getRowId idField row)

/-- JavaScript `===` on two identity values (`getRowId(r) === id` in the
source).  Primitive values compare by type and value; `undefined === undefined`
is true.  Reference equality of non-primitive identity values is not
representable in a value model; the source casts identities to
`string | number`, so non-primitive identities are modelled as never
strictly equal. -/
def idStrictEq : Option Value → Option Value → Bool
  | none, none => true
  | some .null, some .null => true
  | some (.bool a), some (.bool b) => a == b
  | some (.num a), some (.num b) => a == b
  | some (.str a), some (.str b) => a == b
  | _, _ => false

/-- `Modification` of the source: the tagged per-row change record.
`deleted` carries no row data (`data: null`). -/
inductive Modification where
  | added (data : Row)
  | modified (data : Row)
  | deleted

/-- `ChangeState<T>` of the source: a JavaScript object from key to
modification, in property-insertion order. -/
abbrev Overlay := List (String × Modification)

/-- Property read `changes[k]`. -/
def ovLookup (o : Overlay) (k : String) : Option Modification :=
  (o.find? (fun kv => kv.1 == k)).map (fun kv => kv.2)

/-- Property write `draft[k] = m`: an existing key keeps its position, a
new key is appended. -/
def ovInsert : Overlay → String → Modification → Overlay
  | [], k, m => [(k, m)]
  | kv :: rest, k, m =>
      if kv.1 == k then (k, m) :: rest else kv :: ovInsert rest k m

/-- Property delete `delete draft[k]`. -/
def ovErase (o : Overlay) (k : String) : Overlay :=
  o.filter (fun kv => kv.1 != k)

/-- The numeric value of a digit string. -/
def strToNat (s : String) : Nat :=
  s.data.foldl (fun acc c => acc * 10 + (c.toNat - 48)) 0

/-- Whether a character is a decimal digit. -/
def isDigitChar (c : Char) : Bool :=
  48 ≤ c.toNat && c.toNat ≤ 57

/-- Whether a property key is an array index in the JavaScript sense: a
canonical decimal string (digits only, no leading zero) of a natural number
below `2^32 - 1`.  Such keys enumerate before all other string keys, in
ascending numeric order. -/
def isArrayIndexKey (s : String) : Bool :=
  match s.data with
  | [] => false
  | c :: rest =>
      (c :: rest).all isDigitChar && (s == "0" || c != '0')
        && strToNat s < 4294967295

/-- Insert into a sorted list (stable insertion sort step). -/
def insertSorted (le : α → α → Bool) (x : α) : List α → List α
  | [] => [x]
  | y :: ys => if le x y then x :: y :: ys else y :: insertSorted le x ys

/-- Stable insertion sort by a boolean order. -/
def sortBy (le : α → α → Bool) : List α → List α
  | [] => []
  | x :: xs => insertSorted le x (sortBy le xs)

/-- `Object.entries(changes)`: array-index keys first, in ascending numeric
order, then the remaining keys in insertion order. -/
def jsEntries (o : Overlay) : List (String × Modification) :=
  sortBy (fun a b => Nat.ble (strToNat a.1) (strToNat b.1))
      (o.filter (fun kv => isArrayIndexKey kv.1))
    ++ o.filter (fun kv => !isArrayIndexKey kv.1)

/-- `addRow` of the source: unconditionally store `Added{data: row}` at the
row's key. -/
def addRow (idField : String) (changes : Overlay) (row : Row) : Overlay :=
  ovInsert changes (rowKey idField row) (.added row)

/-- The body of `deleteSelectedRows`'s loop for one selected row: a
currently-`Added` entry is removed from tracking, any other row is marked
`Deleted`. -/
def deleteRowStep (idField : String) (changes : Overlay) (row : Row) : Overlay :=
  let k := rowKey idField row
  match ovLookup changes k with
  | some (.added _) => ovErase changes k
  | _ => ovInsert changes k .deleted

/-- `deleteSelectedRows` of the source over the rows the grid reports as
selected. -/
def deleteSelectedRows (idField : String) (changes : Overlay)
    (selectedRows : List Row) : Overlay :=
  selectedRows.foldl (deleteRowStep idField) changes

/-- `reset` of the source: clear the overlay. -/
def reset : Overlay := []

/-- `undoRow` of the source: `delete draft[id]`. -/
def undoRow (idField : String) (changes : Overlay) (row : Row) : Overlay :=
  ovErase changes (rowKey idField row)

/-- `rowData.find(r => getRowId(r) === id)` of the source. -/
def findOriginal (idField : String) (rowData : List Row)
    (idv : Option Value) : Option Row :=
  rowData.find? (fun r => idStrictEq (getRowId idField r) idv)

/-- The body of `modifySelectedRows`'s loop for one selected row: skip a
`Deleted` entry; keep an `Added` entry added, updating its data when the
callback changed it; otherwise compare against the original row found in the
base collection — store `Modified` when different, remove the entry when
deep-equal, do nothing when no original row is found. -/
def modifyRowStep (idField : String) (rowData : List Row) (callback : Row → Row)
    (changes : Overlay) (selectedRow : Row) : Overlay :=
  let idv := getRowId idField selectedRow
  let k := jsKeyString idv
  match ovLookup changes k with
  | some .deleted => changes
  | some (.added _) =>
      let modifiedRow := callback selectedRow
      if deepEqualRow selectedRow modifiedRow then changes
      else ovInsert changes k (.added modifiedRow)
  | _ =>
      let modifiedRow := callback selectedRow
      match findOriginal idField rowData idv with
      | some originalRow =>
          if deepEqualRow originalRow modifiedRow then ovErase changes k
          else ovInsert changes k (.modified modifiedRow)
      | none => changes

/-- `modifySelectedRows` of the source (the callback is the copy-then-apply
transform `produce(selectedRow, callback)` yields). -/
def modifySelectedRows (idField : String) (rowData : List Row)
    (changes : Overlay) (selectedRows : List Row) (callback : Row → Row) : Overlay :=
  selectedRows.foldl (modifyRowStep idField rowData callback) changes

/-- The object spread `{...row, [field]: newValue}`: an existing field keeps
its position with the new value, a new field is appended. -/
def setField : Row → String → Value → Row
  | [], field, v => [(field, v)]
  | kv :: rest, field, v =>
      if kv.1 == field then (field, v) :: rest else kv :: setField rest field v

/-- `onCellEditRequest` of the source: no-op when the column has no field
(or an empty, falsy one) or the row is `Deleted`; an `Added` row stays added
with the updated data; otherwise compare the updated row against the original
found in the base collection — `Modified` when different, entry removed when
deep-equal, no-op when the identity has no base row. -/
def onCellEditRequest (idField : String) (rowData : List Row) (changes : Overlay)
    (eventRow : Row) (field? : Option String) (newValue : Value) : Overlay :=
  match field? with
  | none => changes
  | some field =>
    if field = "" then changes
    else
      let idv := getRowId idField eventRow
      let k := jsKeyString idv
      match ovLookup changes k with
      | some .deleted => changes
      | currentMod =>
        let updatedRow := setField eventRow field newValue
        match currentMod with
        | some (.added _) => ovInsert changes k (.added updatedRow)
        | _ =>
          match findOriginal idField rowData idv with
          | some originalRow =>
              if deepEqualRow originalRow updatedRow then ovErase changes k
              else ovInsert changes k (.modified updatedRow)
          | none => changes

/-- `effectiveRowData` of the source: walk the base collection substituting
`Modified` data in place, then append the data of `Added` entries in the
order `Object.entries` enumerates the overlay. -/
def effectiveRowData (idField : String) (rowData : List Row)
    (changes : Overlay) : List Row :=
  (rowData.map (fun originalRow =>
     match ovLookup changes (rowKey idField originalRow) with
     | some (.modified data) => data
     | _ => originalRow))
  ++ (jsEntries changes).filterMap (fun kv =>
        match kv.2 with
        | .added data => some data
        | _ => none)

/-- An engine operation, with its payload as the host supplies it. -/
inductive Op where
  | add (row : Row)
  | deleteSel (selectedRows : List Row)
  | modifySel (selectedRows : List Row) (callback : Row → Row)
  | cellEdit (eventRow : Row) (field? : Option String) (newValue : Value)
  | undo (row : Row)
  | clearAll

/-- The engine's state: the caller-supplied base collection and the overlay. -/
structure EngineState where
  rowData : List Row
  changes : Overlay

/-- One operation applied to the engine state.  Every operation recomputes
only the overlay; the base collection is read, never written. -/
def applyOp (idField : String) (s : EngineState) : Op → EngineState
  | .add row => { s with changes := addRow idField s.changes row }
  | .deleteSel sel => { s with changes := deleteSelectedRows idField s.changes sel }
  | .modifySel sel f =>
      { s with changes := modifySelectedRows idField s.rowData s.changes sel f }
  | .cellEdit row field? v =>
      { s with changes := onCellEditRequest idField s.rowData s.changes row field? v }
  | .undo row => { s with changes := undoRow idField s.changes row }
  | .clearAll => { s with changes := reset }

/-- A sequence of operations applied in order. -/
def applyOps (idField : String) (s : EngineState) (ops : List Op) : EngineState :=
  ops.foldl (applyOp idField) s

/-- Modelled from the spec (§3 ProjectedView, §4.4 View Projector): the
projected view with the `Added` rows appended in overlay-insertion order
(the order the entries stand in the overlay), rather than in the order
`Object.entries` enumerates them. -/
def effectiveRowDataSpec (idField : String) (rowData : List Row)
    (changes : Overlay) : List Row :=
  (rowData.map (fun originalRow =>
     match ovLookup changes (rowKey idField originalRow) with
     | some (.modified data) => data
     | _ => originalRow))
  ++ changes.filterMap (fun kv =>
        match kv.2 with
        | .added data => some data
        | _ => none)

/-! ## Lemmas about the overlay as a JavaScript object -/

theorem ovLookup_nil (k : String) : ovLookup [] k = none := rfl

theorem ovLookup_ovInsert_self (o : Overlay) (k : String) (m : Modification) :
    ovLookup (ovInsert o k m) k = some m := by
  induction o with
  | nil => simp [ovInsert, ovLookup]
  | cons kv rest ih =>
    by_cases h : kv.1 == k
    · simp [ovInsert, h, ovLookup]
    · simp only [ovInsert, h, Bool.false_eq_true, if_false]
      simpa [ovLookup, List.find?, h] using ih

theorem ovLookup_ovInsert_ne (o : Overlay) (k k2 : String) (m : Modification)
    (h : k2 ≠ k) :
    ovLookup (ovInsert o k m) k2 = ovLookup o k2 := by
  have hk : (k == k2) = false := by
    simpa using fun e => h (Eq.symm e)
  induction o with
  | nil => simp [ovInsert, ovLookup, List.find?, hk]
  | cons kv rest ih =>
    by_cases hkv : kv.1 == k
    · have hkv2 : (kv.1 == k2) = false := by
        have : kv.1 = k := by simpa using hkv
        simpa [this] using fun e => h (Eq.symm e)
      simp [ovInsert, hkv, ovLookup, List.find?, hk, hkv2]
    · simp only [ovInsert, hkv, Bool.false_eq_true, if_false]
      by_cases hkv2 : kv.1 == k2
      · simp [ovLookup, List.find?, hkv2]
      · simpa [ovLookup, List.find?, hkv2] using ih

theorem ovLookup_ovErase_self (o : Overlay) (k : String) :
    ovLookup (ovErase o k) k = none := by
  induction o with
  | nil => rfl
  | cons kv rest ih =>
    by_cases h : kv.1 == k
    · have hb : (kv.1 != k) = false := by simp [bne, h]
      rw [show ovErase (kv :: rest) k = ovErase rest k by
        simp [ovErase, List.filter_cons, hb]]
      exact ih
    · have hb : (kv.1 != k) = true := by simp [bne, h]
      rw [show ovErase (kv :: rest) k = kv :: ovErase rest k by
        simp [ovErase, List.filter_cons, hb]]
      rw [show ovLookup (kv :: ovErase rest k) k = ovLookup (ovErase rest k) k by
        simp [ovLookup, List.find?, h]]
      exact ih

theorem ovLookup_ovErase_ne (o : Overlay) (k k2 : String) (h : k2 ≠ k) :
    ovLookup (ovErase o k) k2 = ovLookup o k2 := by
  induction o with
  | nil => rfl
  | cons kv rest ih =>
    by_cases hkv : kv.1 == k
    · have hb : (kv.1 != k) = false := by simp [bne, hkv]
      have hkv2 : (kv.1 == k2) = false := by
        have : kv.1 = k := by simpa using hkv
        simpa [this] using fun e => h (Eq.symm e)
      simpa [ovErase, ovLookup, List.filter_cons, hb, List.find?, hkv2] using ih
    · have hb : (kv.1 != k) = true := by simp [bne, hkv]
      by_cases hkv2 : kv.1 == k2
      · simp [ovErase, ovLookup, List.filter_cons, hb, List.find?, hkv2]
      · simpa [ovErase, ovLookup, List.filter_cons, hb, List.find?, hkv2] using ih

/-! ## Lemmas about deep equality and field update -/

theorem deepEqual_refl (v : Value) : deepEqual v v = true := by
  simp [deepEqual]

theorem deepEqualRow_refl (r : Row) : deepEqualRow r r = true := by
  simp [deepEqualRow, deepEqual]

theorem setField_setField (r : Row) (field : String) (v1 v2 : Value) :
    setField (setField r field v1) field v2 = setField r field v2 := by
  induction r with
  | nil => simp [setField]
  | cons kv rest ih =>
    by_cases h : kv.1 == field
    · simp [setField, h]
    · simp [setField, h, ih]

theorem setField_same (r : Row) (field : String) (v : Value)
    (h : getField r field = some v) : setField r field v = r := by
  induction r with
  | nil => simp [getField] at h
  | cons kv rest ih =>
    by_cases hk : kv.1 == field
    · have : kv.2 = v := by
        simpa [getField, List.find?, hk] using h
      have hfst : kv.1 = field := by simpa using hk
      simp [setField, hk, ← this, ← hfst]
    · have : getField rest field = some v := by
        simpa [getField, List.find?, hk] using h
      simp [setField, hk, ih this]

theorem getField_setField_ne (r : Row) (field k : String) (v : Value)
    (h : k ≠ field) : getField (setField r field v) k = getField r k := by
  have hk : (field == k) = false := by
    simpa using fun e => h (Eq.symm e)
  induction r with
  | nil => simp [setField, getField, List.find?, hk]
  | cons kv rest ih =>
    by_cases hkv : kv.1 == field
    · have hkv2 : (kv.1 == k) = false := by
        have : kv.1 = field := by simpa using hkv
        simpa [this] using fun e => h (Eq.symm e)
      simp [setField, hkv, getField, List.find?, hk, hkv2]
    · by_cases hkv2 : kv.1 == k
      · simp [setField, getField, List.find?, hkv, hkv2]
      · simpa [setField, getField, List.find?, hkv, hkv2] using ih

/-! ## The base collection is never written -/

theorem applyOp_rowData (idField : String) (s : EngineState) (op : Op) :
    (applyOp idField s op).rowData = s.rowData := by
  cases op <;> rfl

theorem applyOps_rowData (idField : String) (s : EngineState) (ops : List Op) :
    (applyOps idField s ops).rowData = s.rowData := by
  induction ops generalizing s with
  | nil => rfl
  | cons op rest ih =>
    calc (applyOps idField s (op :: rest)).rowData
        = (applyOps idField (applyOp idField s op) rest).rowData := rfl
      _ = (applyOp idField s op).rowData := ih _
      _ = s.rowData := applyOp_rowData idField s op

/-! ## Per-step lemmas for the selection folds -/

theorem rowKey_def (idField : String) (r : Row) :
    jsKeyString (getRowId idField r) = rowKey idField r := rfl

theorem deleteRowStep_lookup_ne (idField : String) (changes : Overlay) (r : Row)
    (k : String) (h : k ≠ rowKey idField r) :
    ovLookup (deleteRowStep idField changes r) k = ovLookup changes k := by
  simp only [deleteRowStep]
  split
  · exact ovLookup_ovErase_ne _ _ _ h
  · exact ovLookup_ovInsert_ne _ _ _ _ h

theorem deleteRowStep_lookup_self (idField : String) (changes : Overlay) (r : Row) :
    ovLookup (deleteRowStep idField changes r) (rowKey idField r) =
      match ovLookup changes (rowKey idField r) with
      | some (.added _) => none
      | _ => some .deleted := by
  rcases hm : ovLookup changes (rowKey idField r) with _ | m
  · simp only [deleteRowStep, hm]
    exact ovLookup_ovInsert_self _ _ _
  · cases m with
    | added d =>
        simp only [deleteRowStep, hm]
        exact ovLookup_ovErase_self _ _
    | modified d =>
        simp only [deleteRowStep, hm]
        exact ovLookup_ovInsert_self _ _ _
    | deleted =>
        simp only [deleteRowStep, hm]
        exact ovLookup_ovInsert_self _ _ _

theorem deleteSelectedRows_lookup_ne (idField : String) (changes : Overlay)
    (sel : List Row) (k : String) (h : ∀ r ∈ sel, rowKey idField r ≠ k) :
    ovLookup (deleteSelectedRows idField changes sel) k = ovLookup changes k := by
  induction sel generalizing changes with
  | nil => rfl
  | cons r rest ih =>
    rw [show deleteSelectedRows idField changes (r :: rest)
        = deleteSelectedRows idField (deleteRowStep idField changes r) rest from rfl]
    rw [ih _ (fun x hx => h x (List.mem_cons_of_mem _ hx))]
    exact deleteRowStep_lookup_ne _ _ _ _ (Ne.symm (h r (List.mem_cons_self _ _)))

theorem modifyRowStep_lookup_ne (idField : String) (rowData : List Row)
    (f : Row → Row) (changes : Overlay) (r : Row) (k : String)
    (h : k ≠ rowKey idField r) :
    ovLookup (modifyRowStep idField rowData f changes r) k = ovLookup changes k := by
  simp only [modifyRowStep]
  split
  · rfl
  · split
    · rfl
    · exact ovLookup_ovInsert_ne _ _ _ _ h
  · split
    · split
      · exact ovLookup_ovErase_ne _ _ _ h
      · exact ovLookup_ovInsert_ne _ _ _ _ h
    · rfl

theorem modifyRowStep_deleted (idField : String) (rowData : List Row)
    (f : Row → Row) (changes : Overlay) (r : Row)
    (h : ovLookup changes (rowKey idField r) = some .deleted) :
    modifyRowStep idField rowData f changes r = changes := by
  simp only [modifyRowStep, rowKey_def, h]

theorem modifySelectedRows_preserves_deleted (idField : String)
    (rowData : List Row) (changes : Overlay) (sel : List Row) (f : Row → Row)
    (k : String) (h : ovLookup changes k = some .deleted) :
    ovLookup (modifySelectedRows idField rowData changes sel f) k = some .deleted := by
  induction sel generalizing changes with
  | nil => exact h
  | cons r rest ih =>
    rw [show modifySelectedRows idField rowData changes (r :: rest) f
        = modifySelectedRows idField rowData
            (modifyRowStep idField rowData f changes r) rest f from rfl]
    by_cases hk : k = rowKey idField r
    · rw [modifyRowStep_deleted idField rowData f changes r (hk ▸ h)]
      exact ih _ h
    · refine ih _ ?_
      rw [modifyRowStep_lookup_ne _ _ _ _ _ _ hk]
      exact h

/-! ## Claim theorems -/

/-- C1: For every base collection and every finite sequence of engine
operations (addRow, deleteSelectedRows over any selection, modifySelectedRows
with any transform, cell-edit request, undoRow, reset), the base collection
rowData is deep-equal after the sequence to its value before it: no operation
mutates, reorders, or writes into the caller-supplied rows. -/
theorem base_collection_unchanged_by_all_ops (idField : String)
    (s : EngineState) (ops : List Op) :
    (applyOps idField s ops).rowData = s.rowData ∧
    deepEqual (.arr ((applyOps idField s ops).rowData.map .obj))
      (.arr (s.rowData.map .obj)) = true := by
  refine ⟨applyOps_rowData idField s ops, ?_⟩
  rw [applyOps_rowData idField s ops]
  exact deepEqual_refl _

/-- C3: For every overlay and every id in the selection passed to
deleteSelectedRows (the selected rows carrying pairwise distinct keys, as the
grid guarantees): if the current overlay entry at that id has type Added, the
operation removes the entry entirely; otherwise it sets the entry at that id
to Deleted carrying no row data, discarding any prior Modified data. -/
theorem deleteRows_added_removed_otherwise_deleted (idField : String)
    (changes : Overlay) (sel : List Row) (row : Row)
    (hmem : row ∈ sel)
    (hnodup : (sel.map (rowKey idField)).Nodup) :
    ovLookup (deleteSelectedRows idField changes sel) (rowKey idField row) =
      match ovLookup changes (rowKey idField row) with
      | some (.added _) => none
      | _ => some .deleted := by
  induction sel generalizing changes with
  | nil => cases hmem
  | cons r rest ih =>
    rw [show deleteSelectedRows idField changes (r :: rest)
        = deleteSelectedRows idField (deleteRowStep idField changes r) rest from rfl]
    rcases List.mem_cons.mp hmem with heq | hmem2
    · subst heq
      have hrest : ∀ x ∈ rest, rowKey idField x ≠ rowKey idField row := by
        intro x hx
        have := (List.nodup_cons.mp hnodup).1
        intro hcontra
        exact this (hcontra ▸ List.mem_map_of_mem (rowKey idField) hx)
      rw [deleteSelectedRows_lookup_ne idField _ rest (rowKey idField row) hrest]
      exact deleteRowStep_lookup_self idField changes row
    · have hne : rowKey idField row ≠ rowKey idField r := by
        have := (List.nodup_cons.mp hnodup).1
        intro hcontra
        exact this (hcontra ▸ List.mem_map_of_mem (rowKey idField) hmem2)
      rw [ih _ hmem2 (List.nodup_cons.mp hnodup).2]
      rw [deleteRowStep_lookup_ne idField changes r (rowKey idField row) hne]

/-- C9: For every overlay in which the entry at an id has type Deleted, a
modifySelectedRows call whose selection contains that row, and a cell-edit
request targeting that row, skip it silently: the transform is not applied
(a single-row call leaves the overlay untouched), the entry at that id
remains Deleted, and no error is raised (the operations are total). -/
theorem deleted_rows_skip_edits (idField : String) (rowData : List Row)
    (changes : Overlay) (sel : List Row) (f : Row → Row) (row : Row)
    (field? : Option String) (v : Value)
    (hdel : ovLookup changes (rowKey idField row) = some .deleted)
    (_hmem : row ∈ sel) :
    ovLookup (modifySelectedRows idField rowData changes sel f)
        (rowKey idField row) = some .deleted ∧
    modifySelectedRows idField rowData changes [row] f = changes ∧
    onCellEditRequest idField rowData changes row field? v = changes := by
  refine ⟨modifySelectedRows_preserves_deleted idField rowData changes sel f _ hdel,
    ?_, ?_⟩
  · rw [show modifySelectedRows idField rowData changes [row] f
        = modifyRowStep idField rowData f changes row from rfl]
    exact modifyRowStep_deleted idField rowData f changes row hdel
  · cases field? with
    | none => rfl
    | some field =>
      by_cases hf : field = ""
      · simp [onCellEditRequest, hf]
      · simp only [onCellEditRequest, hf, if_false, rowKey_def, hdel]

/-- C10: If a cell-edit request targets a row whose identity is not present in
the base collection and is not tracked in the overlay as Added or Deleted, the
operation leaves the overlay unchanged: no Modified entry is created for that
identity and no error is raised (the edit is silently dropped). -/
theorem cell_edit_unknown_row_is_noop (idField : String) (rowData : List Row)
    (changes : Overlay) (row : Row) (field? : Option String) (v : Value)
    (hnotadd : ∀ d, ovLookup changes (rowKey idField row) ≠ some (.added d))
    (hnotdel : ovLookup changes (rowKey idField row) ≠ some .deleted)
    (hnofind : findOriginal idField rowData (getRowId idField row) = none) :
    onCellEditRequest idField rowData changes row field? v = changes := by
  cases field? with
  | none => rfl
  | some field =>
    by_cases hf : field = ""
    · simp [onCellEditRequest, hf]
    · rcases hm : ovLookup changes (rowKey idField row) with _ | m
      · simp only [onCellEditRequest, hf, if_false, rowKey_def, hm, hnofind]
      · cases m with
        | added d => exact absurd hm (hnotadd d)
        | modified d =>
            simp only [onCellEditRequest, hf, if_false, rowKey_def, hm, hnofind]
        | deleted => exact absurd hm hnotdel

/-! ## Concrete rows for the instances -/

/-- The spec's sample base row `{id:'1', age:28}`. -/
def rowAlice : Row := [("id", Value.str "1"), ("age", Value.num 28)]

/-- A second base row `{id:'2', age:35}`. -/
def rowBob : Row := [("id", Value.str "2"), ("age", Value.num 35)]

/-- A row with no `id` field, `{age: 50}`. -/
def rowNoId : Row := [("age", Value.num 50)]

/-- Witness instance for C3. -/
theorem deleteRows_added_removed_otherwise_deleted_witness :
    ovLookup (deleteSelectedRows "id" [("2", Modification.added rowBob)]
        [rowBob, rowAlice]) (rowKey "id" rowBob) = none :=
  deleteRows_added_removed_otherwise_deleted "id"
    [("2", Modification.added rowBob)] [rowBob, rowAlice] rowBob
    (List.mem_cons_self _ _) (by decide)

/-- Witness instance for C9. -/
theorem deleted_rows_skip_edits_witness :
    ovLookup (modifySelectedRows "id" [rowAlice] [("1", Modification.deleted)]
        [rowAlice] (fun r => setField r "age" (Value.num 1)))
        (rowKey "id" rowAlice) = some Modification.deleted ∧
    modifySelectedRows "id" [rowAlice] [("1", Modification.deleted)]
        [rowAlice] (fun r => setField r "age" (Value.num 1))
      = [("1", Modification.deleted)] ∧
    onCellEditRequest "id" [rowAlice] [("1", Modification.deleted)]
        rowAlice (some "age") (Value.num 1) = [("1", Modification.deleted)] :=
  deleted_rows_skip_edits "id" [rowAlice] [("1", Modification.deleted)]
    [rowAlice] (fun r => setField r "age" (Value.num 1)) rowAlice
    (some "age") (Value.num 1) rfl (List.mem_cons_self _ _)

/-- Witness instance for C10. -/
theorem cell_edit_unknown_row_is_noop_witness :
    onCellEditRequest "id" [] [] rowAlice (some "age") (Value.num 1) = [] :=
  cell_edit_unknown_row_is_noop "id" [] [] rowAlice (some "age") (Value.num 1)
    (fun _ h => Option.noConfusion h) (fun h => Option.noConfusion h) rfl

/-- C6 counterexample: `addRow` of a row whose identity field is absent does
not fail and does not reject the edit; the row is tracked in the overlay
under the key `"undefined"`. -/
theorem addRow_missing_id_not_rejected :
    getRowId "id" rowNoId = none ∧
    ovLookup (addRow "id" [] rowNoId) "undefined"
      = some (Modification.added rowNoId) :=
  ⟨rfl, rfl⟩

/-- C6 amended: for every incoming row in which the configured identity field
is absent (its value undefined), addRow does not reject the edit: the
operation succeeds and the row is tracked in the overlay under the string key
`"undefined"` (the property-key coercion of JavaScript `undefined`). -/
theorem addRow_missing_id_tracked_under_undefined (idField : String)
    (changes : Overlay) (row : Row) (h : getRowId idField row = none) :
    ovLookup (addRow idField changes row) "undefined"
      = some (Modification.added row) := by
  have hk : rowKey idField row = "undefined" := by
    simp [rowKey, h, jsKeyString]
  rw [addRow, ← hk]
  exact ovLookup_ovInsert_self _ _ _

/-- Witness instance for C6's amended claim. -/
theorem addRow_missing_id_tracked_under_undefined_witness :
    ovLookup (addRow "id" [("1", Modification.deleted)] rowNoId) "undefined"
      = some (Modification.added rowNoId) :=
  addRow_missing_id_tracked_under_undefined "id"
    [("1", Modification.deleted)] rowNoId rfl

/-- C5 counterexample: two rows holding the same field-value pairs in swapped
field order (a permutation of one another) that the engine's deep-equality
test judges unequal, because `JSON.stringify` serializes fields in the row's
own field order. -/
theorem deepEqual_field_order_counterexample :
    List.Perm [("a", Value.num 1), ("b", Value.num 2)]
        [("b", Value.num 2), ("a", Value.num 1)] ∧
    deepEqualRow [("a", Value.num 1), ("b", Value.num 2)]
        [("b", Value.num 2), ("a", Value.num 1)] = false :=
  ⟨List.Perm.swap _ _ _, rfl⟩

theorem stringifyFields_congr (ps qs : List (String × Value))
    (h : List.Forall₂ (fun p q => p.1 = q.1 ∧ deepEqual p.2 q.2 = true) ps qs) :
    stringifyFields ps = stringifyFields qs := by
  induction h with
  | nil => rfl
  | cons hpq htail ih =>
    rename_i p q ps2 qs2
    obtain ⟨k1, v1⟩ := p
    obtain ⟨k2, v2⟩ := q
    have hk : k1 = k2 := hpq.1
    have hv : stringifyVal v1 = stringifyVal v2 := by
      simpa [deepEqual] using hpq.2
    cases htail with
    | nil => simp [stringifyFields, hk, hv]
    | @cons x y l1 l2 h2 h3 =>
      obtain ⟨k3, v3⟩ := x
      obtain ⟨k4, v4⟩ := y
      simp only [stringifyFields, hk, hv]
      rw [ih]

/-- C5 amended: the engine's deep-equality test is `JSON.stringify` equality.
It depends only on values, never on object identity: two rows with the same
field names in the same order whose values are pairwise deep-equal always
compare equal.  However, the same field-value pairs in different field orders
can compare unequal (serialization follows field order). -/
theorem deepEqual_value_congruence (ps qs : List (String × Value))
    (h : List.Forall₂ (fun p q => p.1 = q.1 ∧ deepEqual p.2 q.2 = true) ps qs) :
    deepEqualRow ps qs = true := by
  have hs := stringifyFields_congr ps qs h
  simp [deepEqualRow, deepEqual, stringifyVal, hs]

/-- Witness instance for C5's amended claim. -/
theorem deepEqual_value_congruence_witness :
    deepEqualRow [("id", Value.str "1"), ("age", Value.num 28)] rowAlice = true :=
  deepEqual_value_congruence _ _
    (List.Forall₂.cons ⟨rfl, rfl⟩ (List.Forall₂.cons ⟨rfl, rfl⟩ List.Forall₂.nil))

/-! ## Step characterizations for the reconciler branches -/

theorem modifyRowStep_added (idField : String) (rowData : List Row)
    (f : Row → Row) (changes : Overlay) (r d : Row)
    (hadd : ovLookup changes (rowKey idField r) = some (.added d)) :
    modifyRowStep idField rowData f changes r =
      if deepEqualRow r (f r) then changes
      else ovInsert changes (rowKey idField r) (.added (f r)) := by
  simp only [modifyRowStep, rowKey_def, hadd]

theorem modifyRowStep_original (idField : String) (rowData : List Row)
    (f : Row → Row) (changes : Overlay) (r o : Row)
    (hna : ∀ d, ovLookup changes (rowKey idField r) ≠ some (.added d))
    (hnd : ovLookup changes (rowKey idField r) ≠ some .deleted)
    (hfind : findOriginal idField rowData (getRowId idField r) = some o) :
    modifyRowStep idField rowData f changes r =
      if deepEqualRow o (f r) then ovErase changes (rowKey idField r)
      else ovInsert changes (rowKey idField r) (.modified (f r)) := by
  rcases hm : ovLookup changes (rowKey idField r) with _ | m
  · simp only [modifyRowStep, rowKey_def, hm, hfind]
  · cases m with
    | added d => exact absurd hm (hna d)
    | modified d => simp only [modifyRowStep, rowKey_def, hm, hfind]
    | deleted => exact absurd hm hnd

theorem onCellEditRequest_added (idField : String) (rowData : List Row)
    (changes : Overlay) (r : Row) (field : String) (v : Value) (d : Row)
    (hf : field ≠ "")
    (hadd : ovLookup changes (rowKey idField r) = some (.added d)) :
    onCellEditRequest idField rowData changes r (some field) v
      = ovInsert changes (rowKey idField r) (.added (setField r field v)) := by
  simp only [onCellEditRequest, if_neg hf, rowKey_def, hadd]

theorem onCellEditRequest_original (idField : String) (rowData : List Row)
    (changes : Overlay) (r : Row) (field : String) (v : Value) (o : Row)
    (hf : field ≠ "")
    (hna : ∀ d, ovLookup changes (rowKey idField r) ≠ some (.added d))
    (hnd : ovLookup changes (rowKey idField r) ≠ some .deleted)
    (hfind : findOriginal idField rowData (getRowId idField r) = some o) :
    onCellEditRequest idField rowData changes r (some field) v =
      if deepEqualRow o (setField r field v)
      then ovErase changes (rowKey idField r)
      else ovInsert changes (rowKey idField r) (.modified (setField r field v)) := by
  rcases hm : ovLookup changes (rowKey idField r) with _ | m
  · simp only [onCellEditRequest, if_neg hf, rowKey_def, hm, hfind]
  · cases m with
    | added d => exact absurd hm (hna d)
    | modified d => simp only [onCellEditRequest, if_neg hf, rowKey_def, hm, hfind]
    | deleted => exact absurd hm hnd

/-- C8: For every overlay in which the entry at an id has type Added (carrying
the row data the grid displays and hands back as the selected or edited row),
applying modifySelectedRows or a cell-edit request to that row yields an entry
at that id still of type Added carrying the updated row data (for the modify
path, up to the engine's own deep equality: when the transform changes
nothing the stored data is kept, deep-equal to the update); the entry is
never reclassified as Modified or Deleted regardless of the resulting
values. -/
theorem added_rows_stay_added (idField : String) (rowData : List Row)
    (changes : Overlay) (d : Row) (f : Row → Row) (field : String) (v : Value)
    (hadd : ovLookup changes (rowKey idField d) = some (.added d))
    (hf : field ≠ "") :
    (∃ d2, ovLookup (modifySelectedRows idField rowData changes [d] f)
        (rowKey idField d) = some (.added d2) ∧ deepEqualRow d2 (f d) = true) ∧
    ovLookup (onCellEditRequest idField rowData changes d (some field) v)
        (rowKey idField d) = some (.added (setField d field v)) := by
  constructor
  · rw [show modifySelectedRows idField rowData changes [d] f
        = modifyRowStep idField rowData f changes d from rfl,
      modifyRowStep_added idField rowData f changes d d hadd]
    by_cases hch : deepEqualRow d (f d) = true
    · rw [if_pos hch]
      exact ⟨d, hadd, hch⟩
    · rw [if_neg hch]
      exact ⟨f d, ovLookup_ovInsert_self _ _ _, deepEqualRow_refl _⟩
  · rw [onCellEditRequest_added idField rowData changes d field v d hf hadd]
    exact ovLookup_ovInsert_self _ _ _

/-- Witness instance for C8. -/
theorem added_rows_stay_added_witness :
    (∃ d2, ovLookup (modifySelectedRows "id" [] [("2", Modification.added rowBob)]
        [rowBob] (fun x => setField x "age" (Value.num 1)))
        (rowKey "id" rowBob) = some (.added d2) ∧
        deepEqualRow d2 (setField rowBob "age" (Value.num 1)) = true) ∧
    ovLookup (onCellEditRequest "id" [] [("2", Modification.added rowBob)]
        rowBob (some "age") (Value.num 1)) (rowKey "id" rowBob)
      = some (.added (setField rowBob "age" (Value.num 1))) :=
  added_rows_stay_added "id" [] [("2", Modification.added rowBob)] rowBob
    (fun x => setField x "age" (Value.num 1)) "age" (Value.num 1) rfl (by decide)

/-- C2: For every base collection, every identity of a base row, and every
pair of transforms f and g such that applying f then g returns the row to
deep equality with the base row, performing modifyRows on that row with f and
then with g (or the equivalent pair of cell edits setting a field to a new
value and back to its original value) leaves the overlay with no entry at
that id — the entry is removed entirely, not stored as an equal-but-present
Modified. -/
theorem roundtrip_revert_removes_entry (idField : String) (rowData : List Row)
    (changes : Overlay) (r : Row) (f g : Row → Row) (field : String)
    (v1 v0 : Value)
    (hfind : findOriginal idField rowData (getRowId idField r) = some r)
    (h0 : ovLookup changes (rowKey idField r) = none)
    (hidf : getRowId idField (f r) = getRowId idField r)
    (hchf : deepEqualRow r (f r) = false)
    (hrev : deepEqualRow r (g (f r)) = true)
    (hfe : field ≠ "") (hfid : field ≠ idField)
    (hv0 : getField r field = some v0)
    (hche : deepEqualRow r (setField r field v1) = false) :
    ovLookup (modifySelectedRows idField rowData
        (modifySelectedRows idField rowData changes [r] f) [f r] g)
      (rowKey idField r) = none ∧
    ovLookup (onCellEditRequest idField rowData
        (onCellEditRequest idField rowData changes r (some field) v1)
        (setField r field v1) (some field) v0)
      (rowKey idField r) = none := by
  have hna0 : ∀ d, ovLookup changes (rowKey idField r) ≠ some (.added d) := by
    intro d h; rw [h0] at h; exact Option.noConfusion h
  have hnd0 : ovLookup changes (rowKey idField r) ≠ some .deleted := by
    intro h; rw [h0] at h; exact Option.noConfusion h
  constructor
  · have hs1 : modifySelectedRows idField rowData changes [r] f
        = ovInsert changes (rowKey idField r) (.modified (f r)) := by
      rw [show modifySelectedRows idField rowData changes [r] f
          = modifyRowStep idField rowData f changes r from rfl,
        modifyRowStep_original idField rowData f changes r r hna0 hnd0 hfind,
        if_neg (by rw [hchf]; exact Bool.false_ne_true)]
    rw [hs1]
    have hkey : rowKey idField (f r) = rowKey idField r := by
      rw [rowKey, rowKey, hidf]
    have hlook : ovLookup (ovInsert changes (rowKey idField r) (.modified (f r)))
        (rowKey idField (f r)) = some (.modified (f r)) := by
      rw [hkey]; exact ovLookup_ovInsert_self _ _ _
    rw [show modifySelectedRows idField rowData
          (ovInsert changes (rowKey idField r) (.modified (f r))) [f r] g
        = modifyRowStep idField rowData g
            (ovInsert changes (rowKey idField r) (.modified (f r))) (f r) from rfl,
      modifyRowStep_original idField rowData g _ (f r) r
        (fun d h => by rw [hlook] at h; simp at h)
        (by intro h; rw [hlook] at h; simp at h)
        (by rw [hidf]; exact hfind),
      if_pos hrev, hkey]
    exact ovLookup_ovErase_self _ _
  · have hs1 : onCellEditRequest idField rowData changes r (some field) v1
        = ovInsert changes (rowKey idField r)
            (.modified (setField r field v1)) := by
      rw [onCellEditRequest_original idField rowData changes r field v1 r
          hfe hna0 hnd0 hfind,
        if_neg (by rw [hche]; exact Bool.false_ne_true)]
    rw [hs1]
    have hid1 : getRowId idField (setField r field v1) = getRowId idField r :=
      getField_setField_ne r field idField v1 (Ne.symm hfid)
    have hkey : rowKey idField (setField r field v1) = rowKey idField r := by
      rw [rowKey, rowKey, hid1]
    have hlook : ovLookup (ovInsert changes (rowKey idField r)
          (.modified (setField r field v1)))
        (rowKey idField (setField r field v1))
        = some (.modified (setField r field v1)) := by
      rw [hkey]; exact ovLookup_ovInsert_self _ _ _
    rw [onCellEditRequest_original idField rowData _ (setField r field v1)
        field v0 r hfe
        (fun d h => by rw [hlook] at h; simp at h)
        (by intro h; rw [hlook] at h; simp at h)
        (by rw [hid1]; exact hfind)]
    have hu : setField (setField r field v1) field v0 = r := by
      rw [setField_setField]
      exact setField_same r field v0 hv0
    rw [hu, if_pos (deepEqualRow_refl r), hkey]
    exact ovLookup_ovErase_self _ _

/-- Witness instance for C2: edit age 28 to 99, then 99 back to 28. -/
theorem roundtrip_revert_removes_entry_witness :
    ovLookup (modifySelectedRows "id" [rowAlice]
        (modifySelectedRows "id" [rowAlice] [] [rowAlice]
          (fun x => setField x "age" (Value.num 99)))
        [(fun x => setField x "age" (Value.num 99)) rowAlice]
        (fun x => setField x "age" (Value.num 28)))
      (rowKey "id" rowAlice) = none ∧
    ovLookup (onCellEditRequest "id" [rowAlice]
        (onCellEditRequest "id" [rowAlice] [] rowAlice (some "age") (Value.num 99))
        (setField rowAlice "age" (Value.num 99)) (some "age") (Value.num 28))
      (rowKey "id" rowAlice) = none :=
  roundtrip_revert_removes_entry "id" [rowAlice] [] rowAlice
    (fun x => setField x "age" (Value.num 99))
    (fun x => setField x "age" (Value.num 28))
    "age" (Value.num 99) (Value.num 28)
    rfl rfl rfl rfl rfl (by decide) (by decide) rfl rfl

/-! ## C4: the order of the appended Added rows -/

theorem jsEntries_of_no_index_keys (o : Overlay)
    (h : ∀ kv ∈ o, isArrayIndexKey kv.1 = false) :
    jsEntries o = o := by
  have h1 : o.filter (fun kv => isArrayIndexKey kv.1) = [] := by
    rw [List.filter_eq_nil_iff]
    intro kv hkv
    simp [h kv hkv]
  have h2 : o.filter (fun kv => !isArrayIndexKey kv.1) = o := by
    rw [List.filter_eq_self]
    intro kv hkv
    simp [h kv hkv]
  simp [jsEntries, h1, h2, sortBy]

/-- The row `{id:'5'}`. -/
def rowFive : Row := [("id", Value.str "5")]

/-- The row `{id:'4'}`. -/
def rowFour : Row := [("id", Value.str "4")]

/-- C4 counterexample: adding `{id:'5'}` then `{id:'4'}` over an empty base
collection stores the Added entries in insertion order 5, 4, but the
projected view appends them in `Object.entries` enumeration order 4, 5
(array-index-like keys come first in ascending numeric order), not in the
order the Added entries were inserted into the overlay. -/
theorem effectiveRowData_insertion_order_counterexample :
    addRow "id" (addRow "id" [] rowFive) rowFour
      = [("5", Modification.added rowFive), ("4", Modification.added rowFour)] ∧
    effectiveRowData "id" [] (addRow "id" (addRow "id" [] rowFive) rowFour)
      = [rowFour, rowFive] ∧
    effectiveRowDataSpec "id" [] (addRow "id" (addRow "id" [] rowFive) rowFour)
      = [rowFive, rowFour] ∧
    stringifyVal (.arr (List.map Value.obj (effectiveRowData "id" []
        (addRow "id" (addRow "id" [] rowFive) rowFour))))
      ≠ stringifyVal (.arr (List.map Value.obj (effectiveRowDataSpec "id" []
        (addRow "id" (addRow "id" [] rowFive) rowFour)))) :=
  ⟨rfl, rfl, rfl, by decide⟩

/-- C4 amended: the projected view walks the base collection in its original
order, substituting Modified data in place and keeping Deleted rows present
with their original base values, and then appends after all base rows the
data of every Added entry in the order `Object.entries` enumerates the
overlay: array-index string keys first in ascending numeric order, then the
remaining keys in insertion order.  When no overlay key is an array-index
string, this coincides with the overlay-insertion order the spec states. -/
theorem effectiveRowData_append_order (idField : String) (rowData : List Row)
    (changes : Overlay)
    (h : ∀ kv ∈ changes, isArrayIndexKey kv.1 = false) :
    effectiveRowData idField rowData changes
      = effectiveRowDataSpec idField rowData changes := by
  unfold effectiveRowData effectiveRowDataSpec
  rw [jsEntries_of_no_index_keys changes h]

/-- A row whose identity `'a'` is not an array-index key. -/
def rowIdA : Row := [("id", Value.str "a"), ("age", Value.num 1)]

/-- A row whose identity `'b'` is not an array-index key. -/
def rowIdB : Row := [("id", Value.str "b"), ("age", Value.num 2)]

/-- Witness instance for C4's amended claim. -/
theorem effectiveRowData_append_order_witness :
    effectiveRowData "id" [] (addRow "id" (addRow "id" [] rowIdB) rowIdA)
      = effectiveRowDataSpec "id" [] (addRow "id" (addRow "id" [] rowIdB) rowIdA) :=
  effectiveRowData_append_order "id" [] _ (by decide)

/-! ## C7: the distinct-from-base invariant -/

/-- Modelled from the spec (§3, Modification invariant): every overlay entry
carrying row data stores data structurally distinct from the base row at that
entry's identity. -/
def EntryDistinctFromBase (idField : String) (rowData : List Row)
    (ov : Overlay) : Prop :=
  ∀ k d o, (ovLookup ov k = some (.added d) ∨ ovLookup ov k = some (.modified d)) →
    o ∈ rowData → rowKey idField o = k → deepEqualRow o d = false

/-- C7 counterexample: `addRow` stores unconditionally, so adding a row
deep-equal to an existing base row reaches an overlay holding an Added entry
whose data is deep-equal to the base state at that identity — a degenerate
entry the claimed invariant says is removed, never stored. -/
theorem overlay_distinct_invariant_counterexample :
    (applyOps "id" ⟨[rowAlice], []⟩ [Op.add rowAlice]).changes
      = [("1", Modification.added rowAlice)] ∧
    ¬ EntryDistinctFromBase "id" [rowAlice]
        (applyOps "id" ⟨[rowAlice], []⟩ [Op.add rowAlice]).changes := by
  refine ⟨rfl, fun h => ?_⟩
  have := h "1" rowAlice rowAlice (Or.inl rfl)
    (List.mem_singleton.mpr rfl) rfl
  rw [deepEqualRow_refl] at this
  exact Bool.noConfusion this

/-- The part of the spec's distinctness invariant the code does maintain:
every `Modified` entry of the overlay stores data deep-unequal to the base
row found at the identity it was written for. -/
def ModifiedDistinct (idField : String) (rowData : List Row)
    (ov : Overlay) : Prop :=
  ∀ k d, ovLookup ov k = some (.modified d) →
    ∃ idv originalRow, jsKeyString idv = k ∧
      findOriginal idField rowData idv = some originalRow ∧
      deepEqualRow originalRow d = false

theorem ModifiedDistinct.insert_non_modified {idField : String}
    {rowData : List Row} {ov : Overlay}
    (hmd : ModifiedDistinct idField rowData ov) (k : String) (m : Modification)
    (hm : ∀ d, m ≠ .modified d) :
    ModifiedDistinct idField rowData (ovInsert ov k m) := by
  intro k2 d h2
  by_cases hk : k2 = k
  · subst hk
    rw [ovLookup_ovInsert_self] at h2
    exact absurd (Option.some.inj h2) (hm d)
  · rw [ovLookup_ovInsert_ne _ _ _ _ hk] at h2
    exact hmd k2 d h2

theorem ModifiedDistinct.erase {idField : String} {rowData : List Row}
    {ov : Overlay} (hmd : ModifiedDistinct idField rowData ov) (k : String) :
    ModifiedDistinct idField rowData (ovErase ov k) := by
  intro k2 d h2
  by_cases hk : k2 = k
  · subst hk
    rw [ovLookup_ovErase_self] at h2
    exact Option.noConfusion h2
  · rw [ovLookup_ovErase_ne _ _ _ hk] at h2
    exact hmd k2 d h2

theorem ModifiedDistinct.insert_modified {idField : String}
    {rowData : List Row} {ov : Overlay}
    (hmd : ModifiedDistinct idField rowData ov) (idv : Option Value)
    (o d : Row) (hfind : findOriginal idField rowData idv = some o)
    (hne : deepEqualRow o d = false) :
    ModifiedDistinct idField rowData (ovInsert ov (jsKeyString idv) (.modified d)) := by
  intro k2 d2 h2
  by_cases hk : k2 = jsKeyString idv
  · subst hk
    rw [ovLookup_ovInsert_self] at h2
    have hd : d = d2 := by
      have := Option.some.inj h2
      injection this
    exact ⟨idv, o, rfl, hfind, hd ▸ hne⟩
  · rw [ovLookup_ovInsert_ne _ _ _ _ hk] at h2
    exact hmd k2 d2 h2

theorem ModifiedDistinct.empty (idField : String) (rowData : List Row) :
    ModifiedDistinct idField rowData [] :=
  fun _ _ h => Option.noConfusion h

theorem modifyRowStep_nofind (idField : String) (rowData : List Row)
    (f : Row → Row) (ov : Overlay) (r : Row)
    (hna : ∀ d, ovLookup ov (rowKey idField r) ≠ some (.added d))
    (hnd : ovLookup ov (rowKey idField r) ≠ some .deleted)
    (hfind : findOriginal idField rowData (getRowId idField r) = none) :
    modifyRowStep idField rowData f ov r = ov := by
  rcases hm : ovLookup ov (rowKey idField r) with _ | m
  · simp only [modifyRowStep, rowKey_def, hm, hfind]
  · cases m with
    | added d => exact absurd hm (hna d)
    | modified d => simp only [modifyRowStep, rowKey_def, hm, hfind]
    | deleted => exact absurd hm hnd

theorem modifyRowStep_preserves_ModifiedDistinct (idField : String)
    (rowData : List Row) (f : Row → Row) (ov : Overlay) (r : Row)
    (hmd : ModifiedDistinct idField rowData ov) :
    ModifiedDistinct idField rowData (modifyRowStep idField rowData f ov r) := by
  rcases hm : ovLookup ov (rowKey idField r) with _ | m
  · have hna : ∀ d, ovLookup ov (rowKey idField r) ≠ some (.added d) := by
      intro d h; rw [hm] at h; exact Option.noConfusion h
    have hnd : ovLookup ov (rowKey idField r) ≠ some .deleted := by
      intro h; rw [hm] at h; exact Option.noConfusion h
    rcases hfind : findOriginal idField rowData (getRowId idField r) with _ | o
    · rw [modifyRowStep_nofind idField rowData f ov r hna hnd hfind]
      exact hmd
    · rw [modifyRowStep_original idField rowData f ov r o hna hnd hfind]
      by_cases hch : deepEqualRow o (f r) = true
      · rw [if_pos hch]
        exact hmd.erase _
      · rw [if_neg hch]
        exact hmd.insert_modified _ o (f r) hfind (Bool.eq_false_iff.mpr hch)
  · cases m with
    | added d =>
        rw [modifyRowStep_added idField rowData f ov r d hm]
        by_cases hch : deepEqualRow r (f r) = true
        · rw [if_pos hch]; exact hmd
        · rw [if_neg hch]
          exact hmd.insert_non_modified _ _ (fun d2 h => Modification.noConfusion h)
    | modified d =>
        have hna : ∀ d2, ovLookup ov (rowKey idField r) ≠ some (.added d2) := by
          intro d2 h; rw [hm] at h; simp at h
        have hnd : ovLookup ov (rowKey idField r) ≠ some .deleted := by
          intro h; rw [hm] at h; simp at h
        rcases hfind : findOriginal idField rowData (getRowId idField r) with _ | o
        · rw [modifyRowStep_nofind idField rowData f ov r hna hnd hfind]
          exact hmd
        · rw [modifyRowStep_original idField rowData f ov r o hna hnd hfind]
          by_cases hch : deepEqualRow o (f r) = true
          · rw [if_pos hch]
            exact hmd.erase _
          · rw [if_neg hch]
            exact hmd.insert_modified _ o (f r) hfind (Bool.eq_false_iff.mpr hch)
    | deleted =>
        rw [modifyRowStep_deleted idField rowData f ov r hm]
        exact hmd

theorem deleteRowStep_preserves_ModifiedDistinct (idField : String)
    (rowData : List Row) (ov : Overlay) (r : Row)
    (hmd : ModifiedDistinct idField rowData ov) :
    ModifiedDistinct idField rowData (deleteRowStep idField ov r) := by
  simp only [deleteRowStep]
  split
  · exact hmd.erase _
  · exact hmd.insert_non_modified _ _ (fun d h => Modification.noConfusion h)

theorem onCellEditRequest_deleted (idField : String) (rowData : List Row)
    (ov : Overlay) (r : Row) (field? : Option String) (v : Value)
    (h : ovLookup ov (rowKey idField r) = some .deleted) :
    onCellEditRequest idField rowData ov r field? v = ov := by
  cases field? with
  | none => rfl
  | some field =>
    by_cases hf : field = ""
    · simp [onCellEditRequest, hf]
    · simp only [onCellEditRequest, if_neg hf, rowKey_def, h]

theorem onCellEditRequest_nofind (idField : String) (rowData : List Row)
    (ov : Overlay) (r : Row) (field : String) (v : Value)
    (hf : field ≠ "")
    (hna : ∀ d, ovLookup ov (rowKey idField r) ≠ some (.added d))
    (hfind : findOriginal idField rowData (getRowId idField r) = none) :
    onCellEditRequest idField rowData ov r (some field) v = ov := by
  rcases hm : ovLookup ov (rowKey idField r) with _ | m
  · simp only [onCellEditRequest, if_neg hf, rowKey_def, hm, hfind]
  · cases m with
    | added d => exact absurd hm (hna d)
    | modified d => simp only [onCellEditRequest, if_neg hf, rowKey_def, hm, hfind]
    | deleted => simp only [onCellEditRequest, if_neg hf, rowKey_def, hm]

theorem onCellEditRequest_preserves_ModifiedDistinct (idField : String)
    (rowData : List Row) (ov : Overlay) (r : Row) (field? : Option String)
    (v : Value) (hmd : ModifiedDistinct idField rowData ov) :
    ModifiedDistinct idField rowData
      (onCellEditRequest idField rowData ov r field? v) := by
  cases field? with
  | none => exact hmd
  | some field =>
    by_cases hf : field = ""
    · rw [show onCellEditRequest idField rowData ov r (some field) v = ov from by
        simp [onCellEditRequest, hf]]
      exact hmd
    · rcases hm : ovLookup ov (rowKey idField r) with _ | m
      · have hna : ∀ d, ovLookup ov (rowKey idField r) ≠ some (.added d) := by
          intro d h; rw [hm] at h; exact Option.noConfusion h
        have hnd : ovLookup ov (rowKey idField r) ≠ some .deleted := by
          intro h; rw [hm] at h; exact Option.noConfusion h
        rcases hfind : findOriginal idField rowData (getRowId idField r) with _ | o
        · rw [onCellEditRequest_nofind idField rowData ov r field v hf hna hfind]
          exact hmd
        · rw [onCellEditRequest_original idField rowData ov r field v o hf hna hnd hfind]
          by_cases hch : deepEqualRow o (setField r field v) = true
          · rw [if_pos hch]
            exact hmd.erase _
          · rw [if_neg hch]
            exact hmd.insert_modified _ o _ hfind (Bool.eq_false_iff.mpr hch)
      · cases m with
        | added d =>
            rw [onCellEditRequest_added idField rowData ov r field v d hf hm]
            exact hmd.insert_non_modified _ _ (fun d2 h => Modification.noConfusion h)
        | modified d =>
            have hna : ∀ d2, ovLookup ov (rowKey idField r) ≠ some (.added d2) := by
              intro d2 h; rw [hm] at h; simp at h
            have hnd : ovLookup ov (rowKey idField r) ≠ some .deleted := by
              intro h; rw [hm] at h; simp at h
            rcases hfind : findOriginal idField rowData (getRowId idField r) with _ | o
            · rw [onCellEditRequest_nofind idField rowData ov r field v hf hna hfind]
              exact hmd
            · rw [onCellEditRequest_original idField rowData ov r field v o hf hna hnd hfind]
              by_cases hch : deepEqualRow o (setField r field v) = true
              · rw [if_pos hch]
                exact hmd.erase _
              · rw [if_neg hch]
                exact hmd.insert_modified _ o _ hfind (Bool.eq_false_iff.mpr hch)
        | deleted =>
            rw [onCellEditRequest_deleted idField rowData ov r (some field) v hm]
            exact hmd

theorem applyOp_preserves_ModifiedDistinct (idField : String)
    (rd : List Row) (ov : Overlay) (op : Op)
    (hmd : ModifiedDistinct idField rd ov) :
    ModifiedDistinct idField rd (applyOp idField ⟨rd, ov⟩ op).changes := by
  cases op with
  | add row =>
      exact hmd.insert_non_modified _ _ (fun d h => Modification.noConfusion h)
  | deleteSel sel =>
      show ModifiedDistinct idField rd (deleteSelectedRows idField ov sel)
      induction sel generalizing ov with
      | nil => exact hmd
      | cons r rest ih =>
          exact ih _ (deleteRowStep_preserves_ModifiedDistinct idField rd ov r hmd)
  | modifySel sel f =>
      show ModifiedDistinct idField rd (modifySelectedRows idField rd ov sel f)
      induction sel generalizing ov with
      | nil => exact hmd
      | cons r rest ih =>
          exact ih _ (modifyRowStep_preserves_ModifiedDistinct idField rd f ov r hmd)
  | cellEdit row field? v =>
      exact onCellEditRequest_preserves_ModifiedDistinct idField rd ov row field? v hmd
  | undo row => exact hmd.erase _
  | clearAll => exact ModifiedDistinct.empty idField rd

theorem applyOps_preserves_ModifiedDistinct (idField : String)
    (rd : List Row) (ops : List Op) (ov : Overlay)
    (hmd : ModifiedDistinct idField rd ov) :
    ModifiedDistinct idField rd (applyOps idField ⟨rd, ov⟩ ops).changes := by
  induction ops generalizing ov with
  | nil => exact hmd
  | cons op rest ih =>
    have h1 := applyOp_preserves_ModifiedDistinct idField rd ov op hmd
    have he : applyOp idField ⟨rd, ov⟩ op
        = ⟨rd, (applyOp idField ⟨rd, ov⟩ op).changes⟩ := by
      cases op <;> rfl
    rw [show applyOps idField ⟨rd, ov⟩ (op :: rest)
        = applyOps idField (applyOp idField ⟨rd, ov⟩ op) rest from rfl, he]
    exact ih _ h1

/-- C7 amended: in every overlay reachable from the empty overlay by engine
operations, every `Modified` entry stores data structurally distinct (by the
engine's deep equality) from the base-collection row found at the identity it
was written for; a modify or cell edit whose result returns to deep equality
with the base row removes the entry instead of storing it.  `Added` entries
are exempt: addRow stores unconditionally, so an Added entry may duplicate a
base row. -/
theorem modified_entries_distinct_from_base (idField : String)
    (rowData : List Row) (ops : List Op) :
    ModifiedDistinct idField rowData
      (applyOps idField ⟨rowData, []⟩ ops).changes :=
  applyOps_preserves_ModifiedDistinct idField rowData ops []
    (ModifiedDistinct.empty idField rowData)

end EditableGrid
